import Mathlib

set_option maxHeartbeats 1000000

namespace IterUtils

/-! Shallow embedding of the iter-utils library (src/iter-utils/iter-utils.ts).

Untyped JavaScript values are modelled by the inductive `JSVal`.  A pull
iterator is represented by the list of items it will still yield; functions
that can raise a JavaScript `TypeError` return `Except String`. -/

/-- Model of the untyped JavaScript values that flow through the library:
primitives, arrays, native Map objects, plain key/value objects, and
already-constructed pull iterators (represented by their remaining items). -/
inductive JSVal : Type where
  | undef : JSVal
  | null : JSVal
  | boolV : Bool → JSVal
  | num : Int → JSVal
  | str : String → JSVal
  | arr : List JSVal → JSVal
  | mapV : List (JSVal × JSVal) → JSVal
  | obj : List (String × JSVal) → JSVal
  | iterator : List JSVal → JSVal

/-- The characters of a string as single-character JS string values, the way the
native string iterator yields them. -/
def strChars (s : String) : List JSVal :=
  s.toList.map (fun c => JSVal.str (String.mk [c]))

/-- Model of the source normalizer `iter` (iter-utils.ts lines 22-38), giving the
list of items the returned iterator yields.
The branches mirror the source: `undefined` returns an empty iterator; accessing
the `next` property of `null` raises an uncaught `TypeError` (the access happens
before the guarded `Symbol.iterator` call); a value with a callable `next` (a
pull iterator) is passed through; arrays, strings and native Maps expose
`Symbol.iterator`; for plain objects that call raises, is caught, and the
`Object.entries` fallback yields `[key, value]` pairs; for primitive numbers and
booleans the fallback yields no entries. -/
def iterSem : JSVal → Except String (List JSVal)
  | .undef => .ok []
  | .null => .error "TypeError: cannot read next of null"
  | .iterator xs => .ok xs
  | .arr xs => .ok xs
  | .str s => .ok (strChars s)
  | .mapV es => .ok (es.map (fun e => JSVal.arr [e.1, e.2]))
  | .obj es => .ok (es.map (fun e => JSVal.arr [JSVal.str e.1, e.2]))
  | .boolV _ => .ok []
  | .num _ => .ok []

/-- Model of the recursive helper `f` inside `pipe` (iter-utils.ts lines 53-61),
applied to the already-reversed operator list.  `none` models the `TypeError`
raised when the operator list is empty: destructuring `[]` binds `first` to
`undefined` and `first(itr)` then calls `undefined` as a function. -/
def pipeChain {α : Type} (itr : α) : List (α → α) → Option α
  | [] => none
  | op :: rest => if rest.isEmpty then some (op itr) else Option.map op (pipeChain itr rest)

/-- Model of `pipe` (iter-utils.ts lines 51-64) after source normalization:
the operator list is reversed and handed to the recursive chain builder. -/
def pipeRun {α : Type} (itr : α) (ops : List (α → α)) : Option α :=
  pipeChain itr ops.reverse

/-- Model of `pipe` applied to a raw source: the source is normalized by `iter`
first (propagating any `TypeError` it raises), then the operator chain runs on
the normalized iterator. -/
def pipeSem (v : JSVal) (ops : List (List JSVal → List JSVal)) :
    Except String (Option (List JSVal)) :=
  (iterSem v).map (fun itr => pipeRun itr ops)

theorem pipeChain_nonempty {α : Type} (itr : α) :
    ∀ (l : List (α → α)), l ≠ [] →
      pipeChain itr l = some (l.foldr (fun op acc => op acc) itr) := by
  intro l
  induction l with
  | nil => intro h; exact absurd rfl h
  | cons op rest ih =>
    intro _
    cases rest with
    | nil => simp [pipeChain]
    | cons op2 rest2 =>
      have hstep : pipeChain itr (op :: op2 :: rest2) =
          Option.map op (pipeChain itr (op2 :: rest2)) := rfl
      rw [hstep, ih (by simp)]
      rfl

/-- Claim C1: for every normalized source and every non-empty operator list,
`pipe` returns exactly the left-to-right nested application
`opN(...(op2(op1(source))))`, even though the chain is built internally by
reversing the operator list and recursing. -/
theorem pipe_applies_left_to_right {α : Type} (itr : α) (ops : List (α → α))
    (h : ops ≠ []) :
    pipeRun itr ops = some (ops.foldl (fun acc op => op acc) itr) := by
  unfold pipeRun
  rw [pipeChain_nonempty itr ops.reverse (by simpa using h)]
  rw [List.foldr_reverse]

/-- Witness for C1 at a concrete input: piping 5 through increment then double
gives 12. -/
theorem pipe_applies_left_to_right_witness :
    pipeRun (5 : Nat) [fun n => n + 1, fun n => n * 2] = some 12 :=
  pipe_applies_left_to_right 5 [fun n => n + 1, fun n => n * 2] (by simp)

/-- Counterexample for C2: calling `pipe` on the array source `[1]` with zero
operators does not return the normalized source (it raises a `TypeError`,
modelled by the `none` result of the operator chain). -/
theorem pipe_zero_ops_counterexample :
    pipeSem (JSVal.arr [JSVal.num 1]) [] = Except.ok none ∧
      pipeSem (JSVal.arr [JSVal.num 1]) [] ≠ Except.ok (some [JSVal.num 1]) := by
  constructor
  · rfl
  · intro h
    have h0 : pipeSem (JSVal.arr [JSVal.num 1]) [] = Except.ok none := rfl
    rw [h0] at h
    simp at h

/-- Claim C2 (amended): `pipe` with zero operators does not return the
normalized source; for every source it raises a `TypeError` (the recursive
chain builder destructures an empty list and calls `undefined` as a function),
modelled here by the `none` result. -/
theorem pipe_zero_ops_raises {α : Type} (itr : α) : pipeRun itr [] = none := rfl

/-- Counterexample for C3: `iter` is not total — on `null` input the probe of
the `next` property raises an uncaught `TypeError` instead of returning an
iterator. -/
theorem iter_null_counterexample :
    iterSem JSVal.null = Except.error "TypeError: cannot read next of null" ∧
      (iterSem JSVal.null).isOk = false := by
  exact ⟨rfl, rfl⟩

/-- Claim C3 (amended): `iter` succeeds on every input except `null`: an absent
value yields an immediately exhausted iterator, an existing pull iterator is
passed through unchanged, native iterables yield their elements, and any other
non-null shape takes the fallback path (a plain object yields its
`[key, value]` entries); only `null` raises, because probing its `next`
property throws before the guarded fallback is reached. -/
theorem iter_total_except_null (v : JSVal) (h : v ≠ JSVal.null) :
    (∃ xs, iterSem v = Except.ok xs) ∧
      iterSem JSVal.undef = Except.ok [] ∧
      (∀ xs, iterSem (JSVal.iterator xs) = Except.ok xs) ∧
      (∀ es, iterSem (JSVal.obj es) =
        Except.ok (es.map (fun e => JSVal.arr [JSVal.str e.1, e.2]))) := by
  refine ⟨?_, rfl, fun xs => rfl, fun es => rfl⟩
  cases v with
  | undef => exact ⟨[], rfl⟩
  | null => exact absurd rfl h
  | boolV b => exact ⟨[], rfl⟩
  | num n => exact ⟨[], rfl⟩
  | str s => exact ⟨strChars s, rfl⟩
  | arr xs => exact ⟨xs, rfl⟩
  | mapV es => exact ⟨_, rfl⟩
  | obj es => exact ⟨_, rfl⟩
  | iterator xs => exact ⟨xs, rfl⟩

/-- Witness for C3 (amended) at a concrete input: a plain object is normalized
to its entries without an error. -/
theorem iter_total_except_null_witness :
    (∃ xs, iterSem (JSVal.obj [("a", JSVal.num 1)]) = Except.ok xs) ∧
      iterSem JSVal.undef = Except.ok [] ∧
      (∀ xs, iterSem (JSVal.iterator xs) = Except.ok xs) ∧
      (∀ es, iterSem (JSVal.obj es) =
        Except.ok (es.map (fun e => JSVal.arr [JSVal.str e.1, e.2]))) :=
  iter_total_except_null (JSVal.obj [("a", JSVal.num 1)])
    (fun h => JSVal.noConfusion h)

/-- One step of a pull iterator, modelled as a step function on an explicit
state type: `none` is the done signal, otherwise the yielded value and the
advanced state. -/
def listStep {V : Type} : List V → Option (V × List V)
  | [] => none
  | v :: vs => some (v, vs)

/-- Step function of the infinite iterator built by `iterate` (iter-utils.ts
lines 96-103): it yields the current value and advances by applying the
function, and is never done. -/
def iterateStep {V : Type} (f : V → V) (s : V) : Option (V × V) :=
  some (s, f s)

/-- Model of draining the iterator produced by `take(n)` (iter-utils.ts lines
111-124) to exhaustion: the loop runs at most `n` times, each iteration makes
exactly one `next` call on the underlying source and stops at the first done
signal.  Returns the yielded items together with the number of `next` calls
made on the source. -/
def takeRun {σ V : Type} (step : σ → Option (V × σ)) : σ → Nat → List V × Nat
  | _, 0 => ([], 0)
  | s, n + 1 =>
    match step s with
    | none => ([], 1)
    | some (v, s2) =>
      let r := takeRun step s2 n
      (v :: r.1, r.2 + 1)

theorem takeRun_list {V : Type} (l : List V) (n : Nat) :
    (takeRun listStep l n).1 = l.take n := by
  induction n generalizing l with
  | zero => cases l <;> rfl
  | succ n ih =>
    cases l with
    | nil => rfl
    | cons v vs =>
      show v :: (takeRun listStep vs n).1 = v :: vs.take n
      rw [ih]

theorem takeRun_pulls_le {σ V : Type} (step : σ → Option (V × σ)) (s : σ)
    (n : Nat) : (takeRun step s n).2 ≤ n := by
  induction n generalizing s with
  | zero => exact Nat.le_refl 0
  | succ n ih =>
    show (takeRun step s (n + 1)).2 ≤ n + 1
    unfold takeRun
    cases step s with
    | none => exact Nat.succ_le_succ (Nat.zero_le n)
    | some p => exact Nat.succ_le_succ (ih p.2)

/-- Claim C4: `take(n)` yields exactly `min(n, length(source))` items in the
source order (for a finite source it yields the length-`min n length` item
list `l.take n`); on any source, finite or infinite, draining it makes at most
`n` `next` calls on the underlying source; and on the infinite source
`iterate(x => x + 1, 0)` taking 3 yields `[0, 1, 2]` with exactly 3 pulls. -/
theorem take_yields_min_and_short_circuits :
    (∀ (V : Type) (l : List V) (n : Nat),
      (takeRun listStep l n).1 = l.take n ∧
        (takeRun listStep l n).1.length = min n l.length) ∧
      (∀ (σ V : Type) (step : σ → Option (V × σ)) (s : σ) (n : Nat),
        (takeRun step s n).2 ≤ n) ∧
      takeRun (iterateStep (fun x : Nat => x + 1)) 0 3 = ([0, 1, 2], 3) := by
  refine ⟨fun V l n => ⟨takeRun_list l n, ?_⟩,
    fun σ V step s n => takeRun_pulls_le step s n, rfl⟩
  rw [takeRun_list]
  exact List.length_take n l

/-- Model of draining `reduce(reducerFn, initialValue)` (iter-utils.ts lines
281-296): a strict left fold over the whole source via `for..of`, which makes
one `next` call per item plus the final call that reports done.  Returns the
accumulated value and the number of `next` calls. -/
def reduceRun {V A : Type} (f : V → A → A) : A → List V → A × Nat
  | acc, [] => (acc, 1)
  | acc, x :: xs =>
    let r := reduceRun f (f x acc) xs
    (r.1, r.2 + 1)

/-- Model of `every(predFn)` (iter-utils.ts lines 303-308): implemented as a
full `reduce` with the AND-fold `(it, acc) => acc && predFn(it)` starting from
`true`, so it consumes the entire source. -/
def everyRun {V : Type} (p : V → Bool) (l : List V) : Bool × Nat :=
  reduceRun (fun it acc => acc && p it) true l

/-- Model of `some(predFn)` (iter-utils.ts lines 315-326): returns `true` from
inside the loop as soon as the predicate holds (pulling no further), `false`
once the source is exhausted.  Returns the result and the number of `next`
calls. -/
def someRun {V : Type} (p : V → Bool) : List V → Bool × Nat
  | [] => (false, 1)
  | x :: xs =>
    if p x then (true, 1)
    else
      let r := someRun p xs
      (r.1, r.2 + 1)

theorem reduceRun_and {V : Type} (p : V → Bool) (l : List V) :
    ∀ acc : Bool,
      (reduceRun (fun it acc => acc && p it) acc l).1 = (acc && l.all p) := by
  induction l with
  | nil => intro acc; simp [reduceRun]
  | cons x xs ih =>
    intro acc
    show (reduceRun (fun it acc => acc && p it) (acc && p x) xs).1 = _
    rw [ih (acc && p x)]
    simp [Bool.and_assoc]

theorem reduceRun_pulls {V A : Type} (f : V → A → A) (l : List V) :
    ∀ acc, (reduceRun f acc l).2 = l.length + 1 := by
  induction l with
  | nil => intro acc; rfl
  | cons x xs ih =>
    intro acc
    show (reduceRun f (f x acc) xs).2 + 1 = xs.length + 1 + 1
    rw [ih (f x acc)]

theorem someRun_result {V : Type} (p : V → Bool) (l : List V) :
    (someRun p l).1 = l.any p := by
  induction l with
  | nil => rfl
  | cons x xs ih =>
    by_cases hp : p x = true
    · simp [someRun, hp]
    · simp only [Bool.not_eq_true] at hp
      simp [someRun, hp, ih]

theorem someRun_pulls {V : Type} (p : V → Bool) (l : List V) :
    (someRun p l).2 = (l.takeWhile (fun x => !p x)).length + 1 := by
  induction l with
  | nil => rfl
  | cons x xs ih =>
    by_cases hp : p x = true
    · simp [someRun, hp, List.takeWhile_cons]
    · simp only [Bool.not_eq_true] at hp
      simp [someRun, hp, List.takeWhile_cons, ih]

/-- Claim C7: `every(pred)` returns the AND-fold of the predicate over all
items (the value `l.all p`) and always makes `length + 1` `next` calls — full
consumption, no short-circuit even after a false item — while `some(pred)`
returns `l.any p` and stops pulling at the first match: its `next`-call count
is the length of the false prefix plus one, so on a match it pulls no further
than the matching item. -/
theorem every_consumes_all_some_short_circuits :
    ∀ (V : Type) (p : V → Bool) (l : List V),
      (everyRun p l).1 = l.all p ∧
        (everyRun p l).2 = l.length + 1 ∧
        (someRun p l).1 = l.any p ∧
        (someRun p l).2 = (l.takeWhile (fun x => !p x)).length + 1 := by
  intro V p l
  refine ⟨?_, ?_, someRun_result p l, someRun_pulls p l⟩
  · have h := reduceRun_and p l true
    rw [Bool.true_and] at h
    exact h
  · exact reduceRun_pulls (fun it acc => acc && p it) l true

/-- Model of one key/value update on an insertion-ordered key-unique mapping:
if the key is present its value is replaced in place, otherwise the pair is
appended.  This is the behaviour of both `Map.prototype.set` (used item by
item by the `new Map(pairs)` constructor inside `intoMap`) and the property
assignment `obj[k] = v` performed by the reducer inside `intoObj`. -/
def assocSet {K V : Type} [DecidableEq K] : List (K × V) → K → V → List (K × V)
  | [], k, v => [(k, v)]
  | (k2, v2) :: rest, k, v =>
    if k2 = k then (k, v) :: rest else (k2, v2) :: assocSet rest k v

/-- Lookup in an insertion-ordered mapping (first matching key). -/
def assocLookup {K V : Type} [DecidableEq K] : List (K × V) → K → Option V
  | [], _ => none
  | (k2, v2) :: rest, k => if k2 = k then some v2 else assocLookup rest k

/-- Model of `intoMap` (iter-utils.ts lines 465-468): `new Map(itr)` inserts
the normalized pairs one by one in encounter order. -/
def intoMapL {K V : Type} [DecidableEq K] (l : List (K × V)) : List (K × V) :=
  l.foldl (fun m p => assocSet m p.1 p.2) []

/-- Model of `intoObj` (iter-utils.ts lines 474-486): a pipe with the single
operator `reduce(([k, v], obj) => { obj[k] = v; return obj }, {})`, which by
the single-operator case of `pipe` is the reducer applied directly to the
normalized source and assigns the pairs one by one in encounter order. -/
def intoObjL {K V : Type} [DecidableEq K] (l : List (K × V)) : List (K × V) :=
  l.foldl (fun m p => assocSet m p.1 p.2) []

/-- The value of the last occurrence of a key in a pair list, in encounter
order; written from the words of the spec sentence describing the duplicate
key contract. -/
def lastValue {K V : Type} [DecidableEq K] : List (K × V) → K → Option V
  | [], _ => none
  | (k2, v2) :: rest, k =>
    match lastValue rest k with
    | some v => some v
    | none => if k2 = k then some v2 else none

theorem assocLookup_assocSet {K V : Type} [DecidableEq K] (m : List (K × V))
    (k : K) (v : V) (k2 : K) :
    assocLookup (assocSet m k v) k2 =
      if k = k2 then some v else assocLookup m k2 := by
  induction m with
  | nil =>
    by_cases h : k = k2 <;> simp [assocSet, assocLookup, h]
  | cons p rest ih =>
    obtain ⟨a, b⟩ := p
    by_cases ha : a = k
    · subst ha
      by_cases h : a = k2 <;> simp [assocSet, assocLookup, h]
    · by_cases h2 : a = k2
      · subst h2
        have hk : ¬ k = a := fun hh => ha hh.symm
        simp [assocSet, assocLookup, ha, hk]
      · simp [assocSet, assocLookup, ha, h2, ih]

theorem assocLookup_foldl_set {K V : Type} [DecidableEq K] (l : List (K × V)) :
    ∀ (m : List (K × V)) (k : K),
      assocLookup (l.foldl (fun m p => assocSet m p.1 p.2) m) k =
        match lastValue l k with
        | some v => some v
        | none => assocLookup m k := by
  induction l with
  | nil => intro m k; rfl
  | cons p rest ih =>
    intro m k
    obtain ⟨a, b⟩ := p
    show assocLookup (rest.foldl (fun m p => assocSet m p.1 p.2)
      (assocSet m a b)) k = _
    rw [ih (assocSet m a b) k]
    cases hrest : lastValue rest k with
    | some v => simp [lastValue, hrest]
    | none =>
      rw [assocLookup_assocSet]
      by_cases ha : a = k <;> simp [lastValue, hrest, ha]

/-- Claim C8: for every finite source of `[key, value]` pairs, both `intoMap`
and `intoObj` bind each key to the value of its last occurrence in encounter
order (later entries overwrite earlier ones); in particular
`intoObj([[a,1],[b,2],[a,3]])` gives the mapping `a = 3, b = 2`. -/
theorem intoMap_intoObj_last_wins :
    (∀ (K V : Type) (_inst : DecidableEq K) (l : List (K × V)) (k : K),
      assocLookup (intoMapL l) k = lastValue l k ∧
        assocLookup (intoObjL l) k = lastValue l k) ∧
      intoObjL [("a", 1), ("b", 2), ("a", 3)] = [("a", 3), ("b", 2)] := by
  constructor
  · intro K V _inst l k
    have h := assocLookup_foldl_set l [] k
    have h2 : (match lastValue l k with
        | some v => some v
        | none => assocLookup ([] : List (K × V)) k) = lastValue l k := by
      cases lastValue l k <;> rfl
    rw [h2] at h
    exact ⟨h, h⟩
  · rfl

/-- One round of pulls inside `zip` (iter-utils.ts lines 434-436): one item is
pulled from every source; the round produces values only when no source
reported done.  With zero sources the round trivially succeeds with an empty
tuple. -/
def zipHeads {V : Type} : List (List V) → Option (List V)
  | [] => some []
  | [] :: _ => none
  | (v :: _) :: rest => (zipHeads rest).map (fun vs => v :: vs)

/-- The result of the `k`-th `next` call (0-based) on the iterator produced by
`zip` (iter-utils.ts lines 432-441), over sources that were normalized once up
front: each earlier round consumed one item from every source. -/
def zipNth {V : Type} : List (List V) → Nat → Option (List V)
  | srcs, 0 => zipHeads srcs
  | srcs, k + 1 => zipNth (srcs.map List.tail) k

/-- The tuples yielded by the `zip` loop within the first `fuel` rounds: the
loop stops at the first round in which some source reports done. -/
def zipList {V : Type} : List (List V) → Nat → List (List V)
  | _, 0 => []
  | srcs, fuel + 1 =>
    match zipHeads srcs with
    | none => []
    | some vs => vs :: zipList (srcs.map List.tail) fuel

/-- Model of `zip` on raw sources: `iterators.map(iter)` normalizes every
source exactly once before the loop (propagating a `TypeError` from `iter`),
then the loop advances those normalized iterators. -/
def zipSem (args : List JSVal) (fuel : Nat) :
    Except String (List (List JSVal)) :=
  (args.mapM iterSem).map (fun srcs => zipList srcs fuel)

/-- One `iter(itr).next()` call as performed by `interleave` on each of its
stored arguments every round (iter-utils.ts lines 448-451): an argument that
is already a pull iterator is passed through by `iter` and advances in place,
while any other shape (an array, a string, ...) is re-normalized to a fresh
iterator whose first item is pulled, leaving the argument itself unchanged.
Returns the pulled value (`none` when done) and the argument state
afterwards. -/
def jsNext (v : JSVal) : Except String (Option (JSVal × JSVal)) :=
  match v with
  | .iterator [] => .ok none
  | .iterator (x :: xs) => .ok (some (x, .iterator xs))
  | v =>
    match iterSem v with
    | .error e => .error e
    | .ok [] => .ok none
    | .ok (x :: _) => .ok (some (x, v))

/-- One round of pulls inside `interleave`: `iter(itr).next()` on every stored
argument, left to right, collecting the pulled items (with `none` marking a
done signal) and the updated argument states. -/
def interleavePull :
    List JSVal → Except String (List (Option JSVal) × List JSVal)
  | [] => .ok ([], [])
  | v :: rest =>
    match jsNext v with
    | .error e => .error e
    | .ok none =>
      match interleavePull rest with
      | .error e => .error e
      | .ok (items, srcs) => .ok (none :: items, v :: srcs)
    | .ok (some (x, v2)) =>
      match interleavePull rest with
      | .error e => .error e
      | .ok (items, srcs) => .ok (some x :: items, v2 :: srcs)

/-- Model of `interleave` (iter-utils.ts lines 446-459) run for at most `fuel`
rounds: every round pulls once from each stored argument, stops yielding the
moment any pull reports done, and otherwise yields each pulled value in source
order before the next round. -/
def interleaveList : List JSVal → Nat → Except String (List JSVal)
  | _, 0 => .ok []
  | srcs, fuel + 1 =>
    match interleavePull srcs with
    | .error e => .error e
    | .ok (items, srcs2) =>
      if items.any Option.isNone then .ok []
      else
        match interleaveList srcs2 fuel with
        | .error e => .error e
        | .ok tailOut => .ok (items.filterMap id ++ tailOut)

/-- Claim C10: `zip` with zero sources never reports done — the `k`-th pull
succeeds with the empty tuple for every `k`, so any number of rounds yields
that many empty tuples. -/
theorem zip_zero_sources_never_done :
    ∀ (V : Type) (k : Nat),
      zipNth ([] : List (List V)) k = some [] ∧
        zipList ([] : List (List V)) k = List.replicate k [] := by
  intro V k
  induction k with
  | zero => exact ⟨rfl, rfl⟩
  | succ k ih =>
    refine ⟨?_, ?_⟩
    · show zipNth (List.map List.tail []) k = some []
      exact ih.1
    · show [] :: zipList (List.map List.tail []) k = [] :: List.replicate k []
      rw [show (List.map List.tail ([] : List (List V))) = [] from rfl, ih.2]

/-- Counterexample for C5: `interleave` applied to two plain arrays of lengths
3 and 5 does not stop after 3 rounds — it re-normalizes each array argument on
every round, so every round pulls the first elements again: four rounds yield
`[1, 4, 1, 4, 1, 4, 1, 4]`, not the three rounds `[1, 4, 2, 5, 3, 6]` the
claim demands. -/
theorem interleave_arrays_counterexample :
    interleaveList
        [JSVal.arr [JSVal.num 1, JSVal.num 2, JSVal.num 3],
          JSVal.arr [JSVal.num 4, JSVal.num 5, JSVal.num 6, JSVal.num 7,
            JSVal.num 8]] 4 =
      Except.ok [JSVal.num 1, JSVal.num 4, JSVal.num 1, JSVal.num 4,
        JSVal.num 1, JSVal.num 4, JSVal.num 1, JSVal.num 4] ∧
      interleaveList
          [JSVal.arr [JSVal.num 1, JSVal.num 2, JSVal.num 3],
            JSVal.arr [JSVal.num 4, JSVal.num 5, JSVal.num 6, JSVal.num 7,
              JSVal.num 8]] 4 ≠
        Except.ok [JSVal.num 1, JSVal.num 4, JSVal.num 2, JSVal.num 5,
          JSVal.num 3, JSVal.num 6] := by
  refine ⟨rfl, fun h => ?_⟩
  have h2 : Except.ok (ε := String)
      [JSVal.num 1, JSVal.num 4, JSVal.num 1, JSVal.num 4,
        JSVal.num 1, JSVal.num 4, JSVal.num 1, JSVal.num 4] =
      Except.ok [JSVal.num 1, JSVal.num 4, JSVal.num 2, JSVal.num 5,
        JSVal.num 3, JSVal.num 6] := h
  simp at h2

/-- Claim C5 (amended): `zip` over sources of lengths 3 and 5 yields exactly
the 3 pairwise tuples and stops (shortest-source-wins), whatever the element
values, and over the raw array sources `[1,2,3]` and `[a,b,c,d,e]` it yields
`[[1,a],[2,b],[3,c]]`; `interleave` obeys the same shortest-source-wins rule
when its sources are pull iterators, yielding the 3 rounds of values — but
when its sources are plain arrays it re-normalizes them on every round and
never stops, yielding two values (the two first elements) per round,
unboundedly. -/
theorem zip_interleave_shortest_wins :
    (∀ (V : Type) (a1 a2 a3 b1 b2 b3 b4 b5 : V) (k : Nat),
      zipList [[a1, a2, a3], [b1, b2, b3, b4, b5]] (k + 3) =
        [[a1, b1], [a2, b2], [a3, b3]]) ∧
      zipSem [JSVal.arr [JSVal.num 1, JSVal.num 2, JSVal.num 3],
          JSVal.arr [JSVal.str "a", JSVal.str "b", JSVal.str "c",
            JSVal.str "d", JSVal.str "e"]] 10 =
        Except.ok [[JSVal.num 1, JSVal.str "a"], [JSVal.num 2, JSVal.str "b"],
          [JSVal.num 3, JSVal.str "c"]] ∧
      (∀ (x1 x2 x3 y1 y2 y3 y4 y5 : JSVal) (k : Nat),
        interleaveList
            [JSVal.iterator [x1, x2, x3], JSVal.iterator [y1, y2, y3, y4, y5]]
            (k + 3) =
          Except.ok [x1, y1, x2, y2, x3, y3]) ∧
      (∀ k : Nat,
        (interleaveList
            [JSVal.arr [JSVal.num 1, JSVal.num 2, JSVal.num 3],
              JSVal.arr [JSVal.num 4, JSVal.num 5, JSVal.num 6, JSVal.num 7,
                JSVal.num 8]] k).map List.length = Except.ok (2 * k)) := by
  refine ⟨?_, rfl, ?_, ?_⟩
  · intro V a1 a2 a3 b1 b2 b3 b4 b5 k
    cases k <;> rfl
  · intro x1 x2 x3 y1 y2 y3 y4 y5 k
    cases k <;> rfl
  · intro k
    induction k with
    | zero => rfl
    | succ k ih =>
      have step : interleaveList
          [JSVal.arr [JSVal.num 1, JSVal.num 2, JSVal.num 3],
            JSVal.arr [JSVal.num 4, JSVal.num 5, JSVal.num 6, JSVal.num 7,
              JSVal.num 8]] (k + 1) =
          match interleaveList
              [JSVal.arr [JSVal.num 1, JSVal.num 2, JSVal.num 3],
                JSVal.arr [JSVal.num 4, JSVal.num 5, JSVal.num 6, JSVal.num 7,
                  JSVal.num 8]] k with
          | .error e => .error e
          | .ok t => .ok (JSVal.num 1 :: JSVal.num 4 :: t) := rfl
      rw [step]
      cases h : interleaveList
          [JSVal.arr [JSVal.num 1, JSVal.num 2, JSVal.num 3],
            JSVal.arr [JSVal.num 4, JSVal.num 5, JSVal.num 6, JSVal.num 7,
              JSVal.num 8]] k with
      | error e =>
        rw [h] at ih
        exact absurd ih (fun hh => Except.noConfusion hh)
      | ok t =>
        rw [h] at ih
        have ht : t.length = 2 * k := Except.ok.inj ih
        show Except.ok (JSVal.num 1 :: JSVal.num 4 :: t).length =
          Except.ok (2 * (k + 1))
        rw [List.length_cons, List.length_cons, ht]
        have harith : 2 * k + 1 + 1 = 2 * (k + 1) := by omega
        rw [harith]

/-- Model of `isArrayOrIter` (iter-utils.ts lines 524-526): the `instanceof
Array` test accepts arrays first; otherwise the `next` property is probed,
which accepts pull iterators, rejects every other non-null shape, and raises a
`TypeError` on `null` and `undefined` (property access on those throws). -/
def isArrayOrIterE : JSVal → Except String Bool
  | .null => .error "TypeError: cannot read next of null"
  | .undef => .error "TypeError: cannot read next of undefined"
  | .arr _ => .ok true
  | .iterator _ => .ok true
  | _ => .ok false

/-- Model of the recursive generator inside `flatten` (iter-utils.ts lines
533-544) drained over the items of its input: per item it runs
`isArrayOrIterE`; a sequence-like item (an array or a pull iterator) is
descended into recursively via `iter` (which yields exactly the nested items),
depth-first and left to right, any other item is yielded as-is, and the
`TypeError` that `isArrayOrIter` raises on a `null` or `undefined` item
propagates. -/
def flattenList : List JSVal → Except String (List JSVal)
  | [] => .ok []
  | JSVal.null :: _ => .error "TypeError: cannot read next of null"
  | JSVal.undef :: _ => .error "TypeError: cannot read next of undefined"
  | JSVal.arr xs :: rest =>
    (flattenList xs).bind
      (fun inner => (flattenList rest).map (fun outer => inner ++ outer))
  | JSVal.iterator xs :: rest =>
    (flattenList xs).bind
      (fun inner => (flattenList rest).map (fun outer => inner ++ outer))
  | x :: rest => (flattenList rest).map (fun outer => x :: outer)

/-- The non-sequence leaf items of a nested structure, depth-first and left to
right, written from the words of the spec sentence describing `flatten`. -/
def leavesList : List JSVal → List JSVal
  | [] => []
  | JSVal.arr xs :: rest => leavesList xs ++ leavesList rest
  | JSVal.iterator xs :: rest => leavesList xs ++ leavesList rest
  | x :: rest => x :: leavesList rest

/-- No `null` or `undefined` occurs at any nesting depth among the items. -/
def noNullUndef : List JSVal → Bool
  | [] => true
  | JSVal.null :: _ => false
  | JSVal.undef :: _ => false
  | JSVal.arr xs :: rest => noNullUndef xs && noNullUndef rest
  | JSVal.iterator xs :: rest => noNullUndef xs && noNullUndef rest
  | _ :: rest => noNullUndef rest

/-- Counterexample for C6: a source whose single item is the nested array
`[null]` makes `flatten` raise a `TypeError` (the capability test probes the
`next` property of `null`) instead of yielding the non-sequence item `null`
as-is. -/
theorem flatten_null_counterexample :
    flattenList [JSVal.arr [JSVal.null]] =
      Except.error "TypeError: cannot read next of null" ∧
      (flattenList [JSVal.arr [JSVal.null]]).isOk = false := by
  have h : flattenList [JSVal.arr [JSVal.null]] =
      Except.error "TypeError: cannot read next of null" := by
    simp [flattenList, Except.bind, Except.map]
  exact ⟨h, by rw [h]; rfl⟩

/-- Claim C6 (amended): for every finite source of nested arrays and iterators
in which no item at any depth is `null` or `undefined`, `flatten` yields
exactly the non-sequence leaf items, depth-first and left to right; in
particular `flatten([1,[2,[3,4]],5])` yields `[1,2,3,4,5]`.  (A `null` or
`undefined` item raises a `TypeError` from the capability test instead of
being yielded as-is.) -/
theorem flatten_yields_leaves :
    (∀ l : List JSVal, noNullUndef l = true →
      flattenList l = Except.ok (leavesList l)) ∧
      flattenList [JSVal.num 1,
          JSVal.arr [JSVal.num 2, JSVal.arr [JSVal.num 3, JSVal.num 4]],
          JSVal.num 5] =
        Except.ok [JSVal.num 1, JSVal.num 2, JSVal.num 3, JSVal.num 4,
          JSVal.num 5] := by
  refine ⟨?_, by simp [flattenList, leavesList, Except.bind, Except.map]⟩
  intro l
  induction l using flattenList.induct with
  | case1 => intro _; simp [flattenList, leavesList]
  | case2 rest => intro h; simp [noNullUndef] at h
  | case3 rest => intro h; simp [noNullUndef] at h
  | case4 xs rest ih1 ih2 =>
    intro h
    rw [show noNullUndef (JSVal.arr xs :: rest) =
      (noNullUndef xs && noNullUndef rest) from by simp [noNullUndef]] at h
    obtain ⟨h1, h2⟩ := Bool.and_eq_true_iff.mp h
    simp only [flattenList, leavesList, ih1 h1, ih2 h2]
    rfl
  | case5 xs rest ih1 ih2 =>
    intro h
    rw [show noNullUndef (JSVal.iterator xs :: rest) =
      (noNullUndef xs && noNullUndef rest) from by simp [noNullUndef]] at h
    obtain ⟨h1, h2⟩ := Bool.and_eq_true_iff.mp h
    simp only [flattenList, leavesList, ih1 h1, ih2 h2]
    rfl
  | case6 x rest hx1 hx2 hx3 hx4 ih =>
    intro h
    have hrest : noNullUndef rest = true := by
      cases x <;> first
        | exact absurd rfl (hx1 _ rfl rfl)
        | simp_all [noNullUndef]
    simp only [flattenList, leavesList, ih hrest]
    rfl

/-- Witness for C6 (amended) at a concrete input free of null and undefined
items. -/
theorem flatten_yields_leaves_witness :
    flattenList [JSVal.num 7, JSVal.arr [JSVal.str "x"]] =
      Except.ok (leavesList [JSVal.num 7, JSVal.arr [JSVal.str "x"]]) :=
  flatten_yields_leaves.1 [JSVal.num 7, JSVal.arr [JSVal.str "x"]]
    (by simp [noNullUndef])

/-- The non-terminal operators a pipe chain can be built from (iter-utils.ts:
`map`, `filter`, `remove`, `take`, `drop`, `dropWhile`, `tap`, `interpose`),
each carrying its configuration. -/
inductive PipeOp (V : Type) : Type where
  | mapOp (f : V → V)
  | filterOp (p : V → Bool)
  | removeOp (p : V → Bool)
  | takeOp (n : Nat)
  | dropOp (n : Nat)
  | dropWhileOp (p : V → Bool)
  | tapOp
  | interposeOp (sep : V)

/-- The items the iterator produced by each operator eventually yields over a
finite input (the side effect of `tap` is ignored; it yields its input
unchanged). -/
def opOut {V : Type} : PipeOp V → List V → List V
  | .mapOp f, l => l.map f
  | .filterOp p, l => l.filter p
  | .removeOp p, l => l.filter (fun x => !(p x))
  | .takeOp n, l => l.take n
  | .dropOp n, l => l.drop n
  | .dropWhileOp p, l => l.dropWhile p
  | .tapOp, l => l
  | .interposeOp sep, l => l.intersperse sep

/-- Number of `next` calls an operator makes on its input iterator at the
moment it is applied.  Every operator except `drop` is a generator function,
whose application merely creates a generator object and runs no body code, so
it makes 0 pulls; `drop` (iter-utils.ts lines 129-141) is a plain function
that runs its loop immediately, pulling until `n` items are consumed or the
input reports done (`min n (length + 1)` pulls on a finite input). -/
def opApplyPulls {V : Type} : PipeOp V → List V → Nat
  | .dropOp n, l => min n (l.length + 1)
  | _, _ => 0

/-- Whether the operator body is a generator function (deferred until the
first pull) rather than a plain function that runs at application time. -/
def isGeneratorOp {V : Type} : PipeOp V → Bool
  | .dropOp _ => false
  | _ => true

/-- Model of what happens while `pipe` builds the chain: `pipe` applies every
operator immediately, left to right (the C1 contract), so each operator
application runs right away, performing `opApplyPulls` pulls on its input.
Returns the items of the final iterator and the total number of pulls
performed before the result is ever pulled from. -/
def composeRun {V : Type} : List V → List (PipeOp V) → List V × Nat
  | cur, [] => (cur, 0)
  | cur, op :: rest =>
    let r := composeRun (opOut op cur) rest
    (r.1, opApplyPulls op cur + r.2)

/-- Counterexample for C9: composing the one-operator chain `drop(1)` over the
source `[10, 20, 30]` consumes an item from the source at composition time,
before the result is first pulled from. -/
theorem compose_drop_pulls_counterexample :
    (composeRun ([10, 20, 30] : List Nat) [PipeOp.dropOp 1]).2 = 1 ∧
      (composeRun ([10, 20, 30] : List Nat) [PipeOp.dropOp 1]).2 ≠ 0 := by
  exact ⟨rfl, by decide⟩

theorem opApplyPulls_generator {V : Type} (op : PipeOp V)
    (h : IterUtils.isGeneratorOp op = true) (l : List V) :
    opApplyPulls op l = 0 := by
  cases op with
  | dropOp n => exact absurd h (by simp [isGeneratorOp])
  | mapOp f => rfl
  | filterOp p => rfl
  | removeOp p => rfl
  | takeOp n => rfl
  | dropWhileOp p => rfl
  | tapOp => rfl
  | interposeOp sep => rfl

/-- Claim C9 (amended): composing a chain made only of generator-based
operators (every non-terminal operator except `drop`) performs no pulls on the
source and runs no operator body work until the result is first pulled from;
`drop(n)` is the exception — applying it runs its loop immediately, so a chain
containing `drop` consumes up to `n` items at composition time.  The composed
chain computes the left-to-right fold of the operator outputs. -/
theorem compose_generator_ops_pull_nothing {V : Type} (src : List V)
    (ops : List (PipeOp V)) (h : ∀ op ∈ ops, IterUtils.isGeneratorOp op = true) :
    (composeRun src ops).2 = 0 ∧
      (composeRun src ops).1 = ops.foldl (fun acc op => opOut op acc) src := by
  induction ops generalizing src with
  | nil => exact ⟨rfl, rfl⟩
  | cons op rest ih =>
    have hop : IterUtils.isGeneratorOp op = true := h op (List.mem_cons_self op rest)
    have hrest : ∀ o ∈ rest, IterUtils.isGeneratorOp o = true :=
      fun o ho => h o (List.mem_cons_of_mem op ho)
    obtain ⟨ih1, ih2⟩ := ih (opOut op src) hrest
    refine ⟨?_, ?_⟩
    · show opApplyPulls op src + (composeRun (opOut op src) rest).2 = 0
      rw [opApplyPulls_generator op hop src, ih1]
    · show (composeRun (opOut op src) rest).1 = _
      rw [ih2]
      rfl

/-- Witness for C9 (amended): a concrete all-generator chain over `[1, 2, 3]`
performs zero pulls at composition time. -/
theorem compose_generator_ops_pull_nothing_witness :
    (composeRun ([1, 2, 3] : List Nat)
        [PipeOp.mapOp (fun x => x + 1), PipeOp.takeOp 2]).2 = 0 ∧
      (composeRun ([1, 2, 3] : List Nat)
          [PipeOp.mapOp (fun x => x + 1), PipeOp.takeOp 2]).1 = [2, 3] :=
  compose_generator_ops_pull_nothing [1, 2, 3]
    [PipeOp.mapOp (fun x => x + 1), PipeOp.takeOp 2] (by decide)

end IterUtils
